import Mathlib

/-!
Shallow embedding of `src/posterize.cpp` (image posterization: RGBA → 4-bit
palettized image with a 16-entry palette).

Modelling conventions:
* Byte buffers (`uint8_t *`) are total functions `Nat → Nat`; every read of a
  `uint8_t` cell goes through `% 256` and every store truncates with `% 256`,
  mirroring the C type.
* `uint64_t` arithmetic is `Nat` arithmetic reduced `% 2^64` at each operation.
* The `std::mt19937` / `std::uniform_int_distribution` draw for pixel `i` is
  modelled by an oracle `seeds : Nat → Nat`, read as `seeds i % 16`: the
  distribution guarantees a value in `[0, 15]`, and every such sequence is
  representable this way.
* `PaletteValue.luminance` is computed in 32-bit float in the source
  (`0.299f*(r/255) + 0.587f*(g/255) + 0.114f*(b/255)`).  We model the
  comparison exactly with the scaled integer `299*r + 587*g + 114*b`
  (the real luma times `255000`), which realizes the same ordering as the
  exact real formula; the initial threshold `darkestLuma = 1.0` becomes
  `255000`.
* The per-pixel cluster index that the source stores in the alpha byte of a
  scratch copy of the input is modelled as a separate assignment function
  `Nat → Nat` (the RGB bytes of the scratch copy are never written).
-/

/-- A 24-bit palette color, three 8-bit channels (`struct PaletteValue`). -/
structure PaletteValue where
  r : Nat
  g : Nat
  b : Nat
deriving DecidableEq, Repr

/-- BT.601 luminance of a palette entry, scaled by `255000`:
`luminance() = 0.299*(r/255) + 0.587*(g/255) + 0.114*(b/255)` in the source
(float); `lumaScaled p = 255000 * luminance p` computed exactly. -/
def lumaScaled (p : PaletteValue) : Nat :=
  299 * p.r + 587 * p.g + 114 * p.b

/-- The darkest-color scan of `setDarkestColorToBlackAndIndex0`:
`(darkestLuma, darkestColor)` after examining entries `0, …, m-1`, starting
from `darkestLuma = 1.0` (scaled: `255000`) and `darkestColor = 0`;
a new darkest is adopted only on a strict `<`. -/
def findDarkest (pal : Nat → PaletteValue) : Nat → Nat × Nat
  | 0 => (255000, 0)
  | m + 1 =>
    let s := findDarkest pal m
    if lumaScaled (pal m) < s.1 then (lumaScaled (pal m), m) else s

/-- Index of the darkest of the 16 palette entries (lowest index wins ties). -/
def darkestColor (pal : Nat → PaletteValue) : Nat :=
  (findDarkest pal 16).2

/-- The 256-entry nibble-swap LUT built by `setDarkestColorToBlackAndIndex0`
for darkest index `d`: initialized to the identity (`lut[i] = i`), then the
four bytes whose nibbles are drawn from `{0, d}` are overridden.  For `d` in
`[1, 15]` the four overridden indices are distinct, so the chain of `if`s
reproduces the array writes.  Stores truncate to `uint8_t`. -/
def lut (d : Nat) (b : Nat) : Nat :=
  if b = 0 then ((d <<< 4) ||| d) % 256
  else if b = d then ((d <<< 4) ||| 0) % 256
  else if b = (d <<< 4) ||| 0 then (0 ||| d) % 256
  else if b = (d <<< 4) ||| d then 0
  else b % 256

/-- The remap loop of `setDarkestColorToBlackAndIndex0`:
`for i in [0, n): image4bit[i] = f(image4bit[i])`, byte reads and stores
through `uint8_t`. -/
def remapLoop (f : Nat → Nat) (img : Nat → Nat) : Nat → (Nat → Nat)
  | 0 => img
  | m + 1 =>
    let b := remapLoop f img m
    fun j => if j = m then f (b m % 256) % 256 else b j

/-- `setDarkestColorToBlackAndIndex0(palette, image4bit, numBytes)`: find the
darkest palette entry, overwrite it with black, and — when it is not already
entry 0 — swap it with entry 0 and rewrite the first `numBytes` bytes of the
packed image through the nibble-swap LUT.  Returns the updated
`(palette, image4bit)`. -/
def setDarkestColorToBlackAndIndex0 (pal : Nat → PaletteValue)
    (img : Nat → Nat) (numBytes : Nat) : (Nat → PaletteValue) × (Nat → Nat) :=
  let d := darkestColor pal
  let pal1 : Nat → PaletteValue := fun k => if k = d then ⟨0, 0, 0⟩ else pal k
  if d = 0 then (pal1, img)
  else
    let pal2 : Nat → PaletteValue := fun k =>
      if k = 0 then pal1 d else if k = d then pal1 0 else pal1 k
    (pal2, remapLoop (lut d) img numBytes)

/-- `Modelled from the spec:` the per-nibble swap the spec's LUT sentence
describes — "for every byte `(hi, lo)`, the output byte is
`(swap(hi), swap(lo))` where swap(d)=0, swap(0)=d, swap(x)=x otherwise".
Used only to exhibit where the source's LUT diverges from it. -/
def swapNibbleSpec (d x : Nat) : Nat :=
  if x = 0 then d else if x = d then 0 else x

/-- `Modelled from the spec:` the whole-byte remap the spec claims the LUT
implements: swap each nibble independently. -/
def swapByteSpec (d b : Nat) : Nat :=
  (swapNibbleSpec d (b / 16) <<< 4) ||| swapNibbleSpec d (b % 16)

/-- Per-cluster centroid accumulator (`struct Color`, three `uint64_t`). -/
structure Color where
  r : Nat
  g : Nat
  b : Nat
deriving DecidableEq, Repr

/-- Pixels (indices `< n`) currently assigned to cluster `k` (the cluster
index is read back from the alpha byte, hence `% 256`). -/
def clusterPixels (assign : Nat → Nat) (n k : Nat) : List Nat :=
  (List.range n).filter fun i => assign i % 256 == k

/-- `numPixelsInCluster[k]` after the accumulation loop. -/
def clusterCount (assign : Nat → Nat) (n k : Nat) : Nat :=
  (clusterPixels assign n k).length

/-- `centroids[k].r`’s channel sum after the accumulation loop: the sum of
byte `4*i + c` over the pixels of cluster `k`, accumulated in `uint64_t`
(reducing the total `% 2^64` is equivalent to reducing after each add). -/
def clusterSum (rgba : Nat → Nat) (assign : Nat → Nat) (n k c : Nat) : Nat :=
  (((clusterPixels assign n k).map fun i => rgba (4 * i + c) % 256).sum) % 2 ^ 64

/-- `centroids[k]` after the averaging step: the accumulated sums, divided by
the cluster count when it is nonzero (`uint64_t` division), otherwise left at
the zeroed accumulator `(0,0,0)`. -/
def centroidOf (rgba : Nat → Nat) (assign : Nat → Nat) (n k : Nat) : Color :=
  let cnt := clusterCount assign n k
  if cnt = 0 then ⟨0, 0, 0⟩
  else ⟨clusterSum rgba assign n k 0 / cnt,
        clusterSum rgba assign n k 1 / cnt,
        clusterSum rgba assign n k 2 / cnt⟩

/-- `uint64_t` subtraction `a - b` (arguments already reduced mod `2^64`). -/
def usub64 (a b : Nat) : Nat :=
  (a + (2 ^ 64 - b % 2 ^ 64)) % 2 ^ 64

/-- The `distance[j]` computation: `dr = centroid.r - pixel.r` in `uint64_t`
(wrapping), then `dr*dr + dg*dg + db*db` in `uint64_t`. -/
def dist64 (c : Color) (pr pg pb : Nat) : Nat :=
  let dr := usub64 c.r pr
  let dg := usub64 c.g pg
  let db := usub64 c.b pb
  (dr * dr % 2 ^ 64 + dg * dg % 2 ^ 64 + db * db % 2 ^ 64) % 2 ^ 64

/-- The nearest-cluster scan state `(bestK, nearestDistance)` after examining
candidates `1, …, m` (candidate `0` is the initial best); a new best is
adopted only on a strict `<`. -/
def bestScan (dist : Nat → Nat) : Nat → Nat × Nat
  | 0 => (0, dist 0)
  | m + 1 =>
    let s := bestScan dist m
    if dist (m + 1) < s.2 then (m + 1, dist (m + 1)) else s

/-- `bestK` for a pixel: scan the 16 distances, lowest index wins ties. -/
def bestCluster (dist : Nat → Nat) : Nat :=
  (bestScan dist 15).1

/-- Distances of pixel `i` to the 16 centroids (pixel bytes read as
`uint8_t`). -/
def pixelDist (rgba : Nat → Nat) (cts : Nat → Color) (i : Nat) : Nat → Nat :=
  fun j => dist64 (cts j) (rgba (4 * i) % 256) (rgba (4 * i + 1) % 256)
    (rgba (4 * i + 2) % 256)

/-- One Lloyd iteration body: average the clusters of the current assignment,
then reassign every pixel `i < n` to its nearest centroid.  Returns the
centroids used, the new assignment, and the `didChange` flag. -/
def lloydStep (rgba : Nat → Nat) (n : Nat) (assign : Nat → Nat) :
    (Nat → Color) × (Nat → Nat) × Bool :=
  let cts : Nat → Color := fun k => centroidOf rgba assign n k
  let newAssign : Nat → Nat := fun i =>
    if i < n then bestCluster (pixelDist rgba cts i) else assign i
  let didChange : Bool := (List.range n).any fun i =>
    !(assign i % 256 == newAssign i)
  (cts, newAssign, didChange)

/-- State returned by the k-means loop: the final assignment, the centroids
computed by the last iteration's averaging step (the palette is built from
these), the number of iterations executed, and the final `didChange` flag. -/
structure LloydResult where
  assign : Nat → Nat
  centroids : Nat → Color
  iters : Nat
  lastChanged : Bool

/-- The `do { … } while (didChange && iterations < maxIterations)` loop, with
`maxIterations = 24`.  `fuel` is `24 - iterDone`; the `fuel = 0` branch is
unreachable from `lloydRun` (the guard `iterDone + 1 < 24` stops the
recursion first) and returns the current state untouched. -/
def lloydGo (rgba : Nat → Nat) (n : Nat) :
    Nat → Nat → (Nat → Nat) → LloydResult
  | 0, iterDone, assign =>
    ⟨assign, fun k => centroidOf rgba assign n k, iterDone, false⟩
  | fuel + 1, iterDone, assign =>
    let step := lloydStep rgba n assign
    if step.2.2 = true ∧ iterDone + 1 < 24 then
      lloydGo rgba n fuel (iterDone + 1) step.2.1
    else
      ⟨step.2.1, step.1, iterDone + 1, step.2.2⟩

/-- Run the k-means refinement from the seeded assignment. -/
def lloydRun (rgba : Nat → Nat) (n : Nat) (assign : Nat → Nat) : LloydResult :=
  lloydGo rgba n 24 0 assign

/-- The index-packing loop, first `m` iterations: pixel `i`'s cluster index
goes into the high nibble of byte `i/2` for even `i`, the low nibble for odd
`i`, with a read-modify-write that preserves the other nibble. -/
def packLoop (assign : Nat → Nat) (img : Nat → Nat) : Nat → (Nat → Nat)
  | 0 => img
  | m + 1 =>
    let b := packLoop assign img m
    let colorIdx := assign m % 256
    let byteIdx := m / 2
    let shift := (1 - m % 2) * 4
    let mask := 0xf0 >>> shift
    fun j => if j = byteIdx
      then ((b byteIdx % 256 &&& mask) ||| (colorIdx <<< shift)) % 256
      else b j

/-- The palette copy-out loop, first `m` entries:
`palette24bit[i*3 + c] = palette[i].{r,g,b}` as `uint8_t`. -/
def copyOutPalette (pal : Nat → PaletteValue) (buf : Nat → Nat) :
    Nat → (Nat → Nat)
  | 0 => buf
  | m + 1 =>
    let b := copyOutPalette pal buf m
    fun j =>
      if j = m * 3 then (pal m).r % 256
      else if j = m * 3 + 1 then (pal m).g % 256
      else if j = m * 3 + 2 then (pal m).b % 256
      else b j

/-- Palette materialization: narrow each centroid channel to its low 8 bits
(`uint8_t(centroids[i].r)` etc.). -/
def posterizePalette (res : LloydResult) : Nat → PaletteValue := fun k =>
  ⟨(res.centroids k).r % 256, (res.centroids k).g % 256,
   (res.centroids k).b % 256⟩

/-- `posterize(image4bit, palette24bit, rgbaIn, numPixels)`.  `image4bit0`
and `palette24bit0` are the initial contents of the caller's output buffers
(the packing loop read-modify-writes `image4bit`); `seeds` is the random
oracle.  Returns the final contents of `(image4bit, palette24bit)`. -/
def posterize (image4bit0 palette24bit0 : Nat → Nat)
    (seeds rgbaIn : Nat → Nat) (numPixels : Nat) : (Nat → Nat) × (Nat → Nat) :=
  let res := lloydRun rgbaIn numPixels fun i => seeds i % 16
  let pal := posterizePalette res
  let img1 := packLoop res.assign image4bit0 numPixels
  let out := setDarkestColorToBlackAndIndex0 pal img1 (numPixels / 2)
  (out.2, copyOutPalette out.1 palette24bit0 16)

/-- Pixel `i`'s color index as read by `applyColorsToPixelBuffer`:
`(image4bit[i / 2] >> ((~i & 1) * 4)) & 0xf` — the high nibble of byte `i/2`
for even `i`, the low nibble for odd `i`. -/
def pixelNibble (img : Nat → Nat) (i : Nat) : Nat :=
  (img (i / 2) % 256 >>> ((1 - i % 2) * 4)) &&& 0xf

/-- `applyColorsToPixelBuffer`: write one pixel `i` of the RGBA output —
extract the nibble (high for even `i`, low for odd), copy the 3-byte palette
entry, set alpha to `0xff`. -/
def writePixel (img pal : Nat → Nat) (b : Nat → Nat) (i : Nat) : Nat → Nat :=
  let colorIdx := pixelNibble img i
  fun j =>
    if j = i * 4 then pal (colorIdx * 3) % 256
    else if j = i * 4 + 1 then pal (colorIdx * 3 + 1) % 256
    else if j = i * 4 + 2 then pal (colorIdx * 3 + 2) % 256
    else if j = i * 4 + 3 then 0xff
    else b j

/-- `applyColorsToPixelBuffer(rgba, image4bit, palette24bit, numPixels)`:
the loop over pixels, first `m` iterations, starting from the caller's
buffer contents `rgba0`. -/
def applyLoop (img pal rgba0 : Nat → Nat) : Nat → (Nat → Nat)
  | 0 => rgba0
  | m + 1 => writePixel img pal (applyLoop img pal rgba0 m) m

/-- `applyColorsToPixelBuffer`: returns the final contents of `rgba`. -/
def applyColorsToPixelBuffer (rgba0 img pal : Nat → Nat) (numPixels : Nat) :
    Nat → Nat :=
  applyLoop img pal rgba0 numPixels

/-- Byte `j < 48` of the copied-out palette buffer (channel `j % 3` of entry
`j / 3`); used to state what `copyOutPalette` writes. -/
def palByte (pal : Nat → PaletteValue) (j : Nat) : Nat :=
  if j % 3 = 0 then (pal (j / 3)).r % 256
  else if j % 3 = 1 then (pal (j / 3)).g % 256
  else (pal (j / 3)).b % 256

/-- The exact mathematical squared Euclidean RGB distance between a centroid
and a pixel byte triple, computed in ℤ. -/
def sqDistZ (c : Color) (pr pg pb : Nat) : ℤ :=
  ((c.r : ℤ) - pr) ^ 2 + ((c.g : ℤ) - pg) ^ 2 + ((c.b : ℤ) - pb) ^ 2

/-! ## Evaluation lemmas for the write loops -/

theorem remapLoop_eval (f img : Nat → Nat) :
    ∀ n j, remapLoop f img n j = if j < n then f (img j % 256) % 256 else img j := by
  intro n
  induction n with
  | zero => intro j; simp [remapLoop]
  | succ m ih =>
    intro j
    simp only [remapLoop]
    have hm : remapLoop f img m m = img m := by
      rw [ih]; simp
    by_cases h : j = m
    · subst h
      rw [if_pos rfl, hm, if_pos (Nat.lt_succ_self j)]
    · rw [if_neg h, ih]
      by_cases h2 : j < m
      · rw [if_pos h2, if_pos (by omega)]
      · rw [if_neg h2, if_neg (by omega)]

theorem copyOutPalette_eval (pal : Nat → PaletteValue) (buf : Nat → Nat) :
    ∀ m j, copyOutPalette pal buf m j =
      if j < m * 3 then palByte pal j else buf j := by
  intro m
  induction m with
  | zero => intro j; simp [copyOutPalette]
  | succ m ih =>
    intro j
    simp only [copyOutPalette]
    by_cases h0 : j = m * 3
    · rw [if_pos h0, if_pos (by omega)]
      simp only [palByte]
      rw [if_pos (by omega), show j / 3 = m by omega]
    · rw [if_neg h0]
      by_cases h1 : j = m * 3 + 1
      · rw [if_pos h1, if_pos (by omega)]
        simp only [palByte]
        rw [if_neg (by omega), if_pos (by omega), show j / 3 = m by omega]
      · rw [if_neg h1]
        by_cases h2 : j = m * 3 + 2
        · rw [if_pos h2, if_pos (by omega)]
          simp only [palByte]
          rw [if_neg (by omega), if_neg (by omega), show j / 3 = m by omega]
        · rw [if_neg h2, ih]
          by_cases hlt : j < m * 3
          · rw [if_pos hlt, if_pos (by omega)]
          · rw [if_neg hlt, if_neg (by omega)]

/-! ## The black-at-zero normalizer -/

theorem findDarkest_entry0_black (pal : Nat → PaletteValue)
    (h : lumaScaled (pal 0) = 0) :
    ∀ m, 1 ≤ m → findDarkest pal m = (0, 0) := by
  intro m
  induction m with
  | zero => intro hm; exact absurd hm (by omega)
  | succ m ih =>
    intro _
    by_cases hm : m = 0
    · subst hm
      simp [findDarkest, h]
    · have hs := ih (by omega)
      simp only [findDarkest, hs]
      rw [if_neg (by omega)]

theorem darkestColor_of_entry0_black (pal : Nat → PaletteValue)
    (h : pal 0 = ⟨0, 0, 0⟩) : darkestColor pal = 0 := by
  have hl : lumaScaled (pal 0) = 0 := by rw [h]; rfl
  unfold darkestColor
  rw [findDarkest_entry0_black pal hl 16 (by omega)]

/-- Whatever the input, the normalizer leaves a pure black entry at index 0. -/
theorem setDarkest_fst_zero (pal : Nat → PaletteValue) (img : Nat → Nat)
    (numBytes : Nat) :
    (setDarkestColorToBlackAndIndex0 pal img numBytes).1 0 = ⟨0, 0, 0⟩ := by
  simp only [setDarkestColorToBlackAndIndex0]
  by_cases hd : darkestColor pal = 0
  · rw [if_pos hd]
    simp [hd]
  · rw [if_neg hd]
    simp

theorem setDarkest_eq_of_entry0_black (pal : Nat → PaletteValue)
    (img : Nat → Nat) (numBytes : Nat) (h : pal 0 = ⟨0, 0, 0⟩) :
    setDarkestColorToBlackAndIndex0 pal img numBytes = (pal, img) := by
  have hd : darkestColor pal = 0 := darkestColor_of_entry0_black pal h
  simp only [setDarkestColorToBlackAndIndex0, hd, if_pos]
  refine Prod.ext ?_ rfl
  funext k
  by_cases hk : k = 0
  · subst hk; simp [h]
  · simp [hk]

/-- C9: applying the black-at-zero normalizer to a (palette, packed image)
pair whose palette entry 0 is already (0,0,0) changes neither the palette nor
the packed image. -/
theorem setDarkest_noop_of_black (pal : Nat → PaletteValue) (img : Nat → Nat)
    (numBytes : Nat) (h : pal 0 = ⟨0, 0, 0⟩) :
    setDarkestColorToBlackAndIndex0 pal img numBytes = (pal, img) :=
  setDarkest_eq_of_entry0_black pal img numBytes h

/-- Witness for C9 at a concrete already-normalized pair. -/
theorem setDarkest_noop_of_black_witness :
    setDarkestColorToBlackAndIndex0 (fun _ => ⟨0, 0, 0⟩) (fun _ => 0) 4 =
      ((fun _ => ⟨0, 0, 0⟩), (fun _ => 0)) :=
  setDarkest_noop_of_black (fun _ => ⟨0, 0, 0⟩) (fun _ => 0) 4 rfl

/-- C1 (code bug): for darkest index d = 1, the byte `0x02` pairs nibble 0
(in `{0, d}`) with nibble 2 (outside `{0, d}`).  The claimed table value is
`(swap(0) << 4) | swap(2) = 0x12`, but the source's LUT overrides only the
four bytes whose nibbles are both drawn from `{0, d}`, so it leaves `0x02`
unchanged. -/
theorem lut_mixed_byte_not_swapped :
    lut 1 0x02 = 0x02 ∧ swapByteSpec 1 0x02 = 0x12 ∧
      lut 1 0x02 ≠ swapByteSpec 1 0x02 := by
  decide

/-- A palette that is everywhere black goes to an everywhere-black palette. -/
theorem setDarkest_all_black (pal : Nat → PaletteValue) (img : Nat → Nat)
    (nb : Nat) (h : ∀ k, pal k = ⟨0, 0, 0⟩) (k : Nat) :
    (setDarkestColorToBlackAndIndex0 pal img nb).1 k = ⟨0, 0, 0⟩ := by
  rw [setDarkest_eq_of_entry0_black pal img nb (h 0)]
  exact h k

/-- With zero pixels every cluster is empty, so every materialized palette
entry is (0,0,0). -/
theorem posterizePalette_zero (rgba a : Nat → Nat) (k : Nat) :
    posterizePalette (lloydRun rgba 0 a) k = ⟨0, 0, 0⟩ := rfl

/-- C10: with `numPixels = 0`, `posterize` leaves the `image4bit` buffer
untouched and writes 48 zero bytes (16 black entries) to `palette24bit`,
leaving bytes past 48 untouched. -/
theorem posterize_zero_pixels (img0 pal0 seeds rgba : Nat → Nat) (j : Nat) :
    (posterize img0 pal0 seeds rgba 0).1 j = img0 j ∧
    (posterize img0 pal0 seeds rgba 0).2 j = if j < 48 then 0 else pal0 j := by
  constructor
  · simp only [posterize]
    rw [setDarkest_eq_of_entry0_black _ _ _ (posterizePalette_zero rgba _ 0)]
    rfl
  · simp only [posterize]
    rw [copyOutPalette_eval]
    by_cases hj : j < 48
    · rw [if_pos (show j < 16 * 3 by omega), if_pos hj]
      simp only [palByte]
      rw [setDarkest_all_black _ _ _ (fun k => posterizePalette_zero rgba _ k)]
      split
      · rfl
      · split <;> rfl
    · rw [if_neg (show ¬j < 16 * 3 by omega), if_neg hj]

/-- Witness for C10 at a concrete buffer. -/
theorem posterize_zero_pixels_witness :
    (posterize (fun _ => 3) (fun _ => 7) (fun _ => 0) (fun _ => 0) 0).1 5 = 3 ∧
    (posterize (fun _ => 3) (fun _ => 7) (fun _ => 0) (fun _ => 0) 0).2 5 =
      if 5 < 48 then 0 else 7 :=
  posterize_zero_pixels (fun _ => 3) (fun _ => 7) (fun _ => 0) (fun _ => 0) 5

/-- C3: after `posterize`, palette bytes 0,1,2 are 0 (entry 0 is pure black)
and no palette entry has strictly lower BT.601 luma than entry 0. -/
theorem posterize_entry0_black_and_darkest (img0 pal0 seeds rgba : Nat → Nat)
    (n : Nat) :
    ((posterize img0 pal0 seeds rgba n).2 0 = 0 ∧
     (posterize img0 pal0 seeds rgba n).2 1 = 0 ∧
     (posterize img0 pal0 seeds rgba n).2 2 = 0) ∧
    ∀ j, ¬(lumaScaled ⟨(posterize img0 pal0 seeds rgba n).2 (3 * j),
             (posterize img0 pal0 seeds rgba n).2 (3 * j + 1),
             (posterize img0 pal0 seeds rgba n).2 (3 * j + 2)⟩ <
           lumaScaled ⟨(posterize img0 pal0 seeds rgba n).2 0,
             (posterize img0 pal0 seeds rgba n).2 1,
             (posterize img0 pal0 seeds rgba n).2 2⟩) := by
  have hkey : ∀ c, c < 3 → (posterize img0 pal0 seeds rgba n).2 c = 0 := by
    intro c hc
    simp only [posterize]
    rw [copyOutPalette_eval, if_pos (show c < 16 * 3 by omega)]
    simp only [palByte]
    rw [show c / 3 = 0 by omega, setDarkest_fst_zero]
    interval_cases c <;> rfl
  refine ⟨⟨hkey 0 (by omega), hkey 1 (by omega), hkey 2 (by omega)⟩, ?_⟩
  intro j
  rw [hkey 0 (by omega), hkey 1 (by omega), hkey 2 (by omega)]
  rw [show lumaScaled ⟨0, 0, 0⟩ = 0 from rfl]
  exact Nat.not_lt_zero _

/-- Witness for C3 at a concrete one-pixel run. -/
theorem posterize_entry0_black_and_darkest_witness :
    (posterize (fun _ => 0) (fun _ => 0) (fun _ => 0) (fun _ => 0) 1).2 0 = 0 ∧
    ¬(lumaScaled ⟨(posterize (fun _ => 0) (fun _ => 0) (fun _ => 0)
          (fun _ => 0) 1).2 (3 * 5),
        (posterize (fun _ => 0) (fun _ => 0) (fun _ => 0) (fun _ => 0) 1).2
          (3 * 5 + 1),
        (posterize (fun _ => 0) (fun _ => 0) (fun _ => 0) (fun _ => 0) 1).2
          (3 * 5 + 2)⟩ <
      lumaScaled ⟨(posterize (fun _ => 0) (fun _ => 0) (fun _ => 0)
          (fun _ => 0) 1).2 0,
        (posterize (fun _ => 0) (fun _ => 0) (fun _ => 0) (fun _ => 0) 1).2 1,
        (posterize (fun _ => 0) (fun _ => 0) (fun _ => 0) (fun _ => 0) 1).2
          2⟩) :=
  ⟨(posterize_entry0_black_and_darkest (fun _ => 0) (fun _ => 0) (fun _ => 0)
      (fun _ => 0) 1).1.1,
   (posterize_entry0_black_and_darkest (fun _ => 0) (fun _ => 0) (fun _ => 0)
      (fun _ => 0) 1).2 5⟩

/-! ## Distance arithmetic -/

/-- One squared channel delta: the wrapped `uint64_t` difference, squared in
`uint64_t`, equals the exact squared signed difference when both inputs are
byte-sized. -/
theorem usq_exact (a b : Nat) (ha : a ≤ 255) (hb : b ≤ 255) :
    ((usub64 a b * usub64 a b % 2 ^ 64 : Nat) : ℤ) = ((a : ℤ) - b) ^ 2 := by
  unfold usub64
  rw [Nat.mod_eq_of_lt (show b < 2 ^ 64 by omega)]
  rcases le_or_lt b a with h | h
  · rw [show a + (2 ^ 64 - b) = (a - b) + 2 ^ 64 by omega, Nat.add_mod_right,
      Nat.mod_eq_of_lt (show a - b < 2 ^ 64 by omega),
      Nat.mod_eq_of_lt (show (a - b) * (a - b) < 2 ^ 64 from
        lt_of_le_of_lt (Nat.mul_le_mul (show a - b ≤ 255 by omega)
          (show a - b ≤ 255 by omega)) (by norm_num))]
    push_cast [Nat.cast_sub h]
    ring
  · rw [show a + (2 ^ 64 - b) = 2 ^ 64 - (b - a) by omega,
      Nat.mod_eq_of_lt (show 2 ^ 64 - (b - a) < 2 ^ 64 by omega)]
    have h2 : (2 ^ 64 - (b - a)) * (2 ^ 64 - (b - a)) =
        (b - a) * (b - a) + (2 ^ 64 - 2 * (b - a)) * 2 ^ 64 := by
      zify [show b - a ≤ 2 ^ 64 by omega, show 2 * (b - a) ≤ 2 ^ 64 by omega]
      ring
    rw [h2, Nat.add_mul_mod_self_right,
      Nat.mod_eq_of_lt (show (b - a) * (b - a) < 2 ^ 64 from
        lt_of_le_of_lt (Nat.mul_le_mul (show b - a ≤ 255 by omega)
          (show b - a ≤ 255 by omega)) (by norm_num))]
    push_cast [Nat.cast_sub h.le]
    ring

/-- Bound on one squared channel delta. -/
theorem usq_le (a b : Nat) (ha : a ≤ 255) (hb : b ≤ 255) :
    usub64 a b * usub64 a b % 2 ^ 64 ≤ 65025 := by
  have h := usq_exact a b ha hb
  have h2 : ((a : ℤ) - b) ^ 2 ≤ 65025 := by
    have ha' : (a : ℤ) ≤ 255 := by exact_mod_cast ha
    have hb' : (b : ℤ) ≤ 255 := by exact_mod_cast hb
    have ha0 : (0 : ℤ) ≤ a := Int.ofNat_nonneg a
    have hb0 : (0 : ℤ) ≤ b := Int.ofNat_nonneg b
    nlinarith
  exact_mod_cast h ▸ h2

theorem dist64_exact_aux (c : Color) (pr pg pb : Nat)
    (h1 : c.r ≤ 255) (h2 : c.g ≤ 255) (h3 : c.b ≤ 255)
    (h4 : pr ≤ 255) (h5 : pg ≤ 255) (h6 : pb ≤ 255) :
    ((dist64 c pr pg pb : Nat) : ℤ) = sqDistZ c pr pg pb := by
  unfold dist64 sqDistZ
  simp only
  rw [Nat.mod_eq_of_lt (show _ < 2 ^ 64 from lt_of_le_of_lt
    (add_le_add (add_le_add (usq_le c.r pr h1 h4) (usq_le c.g pg h2 h5))
      (usq_le c.b pb h3 h6)) (by norm_num))]
  rw [Nat.cast_add, Nat.cast_add, usq_exact c.r pr h1 h4,
    usq_exact c.g pg h2 h5, usq_exact c.b pb h3 h6]

/-- C4: with every centroid channel at most 255 (and byte-sized pixel
channels), the wrapping `uint64_t` distance computation — unsigned channel
deltas, squared and summed modulo `2^64` — returns exactly the mathematical
squared Euclidean RGB distance. -/
theorem dist64_exact (c : Color) (pr pg pb : Nat)
    (h1 : c.r ≤ 255) (h2 : c.g ≤ 255) (h3 : c.b ≤ 255)
    (h4 : pr ≤ 255) (h5 : pg ≤ 255) (h6 : pb ≤ 255) :
    ((dist64 c pr pg pb : Nat) : ℤ) = sqDistZ c pr pg pb :=
  dist64_exact_aux c pr pg pb h1 h2 h3 h4 h5 h6

/-- Witness for C4 at centroid (0,0,0) against pixel (255,255,255). -/
theorem dist64_exact_witness :
    ((dist64 ⟨0, 0, 0⟩ 255 255 255 : Nat) : ℤ) = sqDistZ ⟨0, 0, 0⟩ 255 255 255 ∧
    dist64 ⟨0, 0, 0⟩ 255 255 255 = 195075 :=
  ⟨dist64_exact ⟨0, 0, 0⟩ 255 255 255 (by decide) (by decide) (by decide)
    (by decide) (by decide) (by decide), by decide⟩

/-! ## Termination of the Lloyd loop -/

theorem lloydGo_iters (rgba : Nat → Nat) (n : Nat) :
    ∀ fuel iterDone assign, iterDone + fuel = 24 →
      (lloydGo rgba n fuel iterDone assign).iters ≤ 24 ∧
      ((lloydGo rgba n fuel iterDone assign).lastChanged = false ∨
        (lloydGo rgba n fuel iterDone assign).iters = 24) := by
  intro fuel
  induction fuel with
  | zero =>
    intro iterDone assign h
    refine ⟨by simp [lloydGo]; omega, Or.inl (by simp [lloydGo])⟩
  | succ m ih =>
    intro iterDone assign h
    simp only [lloydGo]
    split
    · exact ih (iterDone + 1) _ (by omega)
    · rename_i hcond
      refine ⟨by simp; omega, ?_⟩
      by_cases hch : (lloydStep rgba n assign).2.2 = true
      · right
        have hlt : ¬iterDone + 1 < 24 := fun hl => hcond ⟨hch, hl⟩
        simp only
        omega
      · left
        simpa using hch

/-- C5: the Lloyd refiner executes at most 24 iterations on every input, and
on exit either the final iteration produced no assignment change or the
iteration count reached 24. -/
theorem lloydRun_terminates (rgba : Nat → Nat) (n : Nat) (assign : Nat → Nat) :
    (lloydRun rgba n assign).iters ≤ 24 ∧
    ((lloydRun rgba n assign).lastChanged = false ∨
      (lloydRun rgba n assign).iters = 24) :=
  lloydGo_iters rgba n 24 0 assign rfl

/-- Witness for C5 at a concrete one-pixel run. -/
theorem lloydRun_terminates_witness :
    (lloydRun (fun _ => 0) 1 (fun _ => 0)).iters ≤ 24 ∧
    ((lloydRun (fun _ => 0) 1 (fun _ => 0)).lastChanged = false ∨
      (lloydRun (fun _ => 0) 1 (fun _ => 0)).iters = 24) :=
  lloydRun_terminates (fun _ => 0) 1 (fun _ => 0)

/-! ## Centroid bounds -/

theorem clusterCount_le (assign : Nat → Nat) (n k : Nat) :
    clusterCount assign n k ≤ n := by
  unfold clusterCount clusterPixels
  exact le_trans (List.length_filter_le _ _) (by simp)

theorem clusterSumRaw_le (rgba assign : Nat → Nat) (n k c : Nat) :
    (((clusterPixels assign n k).map fun i => rgba (4 * i + c) % 256).sum) ≤
      255 * clusterCount assign n k := by
  have hb : ∀ x ∈ (clusterPixels assign n k).map fun i => rgba (4 * i + c) % 256,
      x ≤ 255 := by
    intro x hx
    obtain ⟨i, _, rfl⟩ := List.mem_map.mp hx
    exact Nat.le_of_lt_succ (Nat.mod_lt _ (by omega))
  have := List.sum_le_card_nsmul _ 255 hb
  simpa [clusterCount, mul_comm] using this

theorem clusterSum_le (rgba assign : Nat → Nat) (n k c : Nat) :
    clusterSum rgba assign n k c ≤ 255 * clusterCount assign n k :=
  le_trans (Nat.mod_le _ _) (clusterSumRaw_le rgba assign n k c)

/-- The `uint64_t` channel accumulators never actually wrap when
`255 * n < 2^64`. -/
theorem clusterSum_no_wrap (rgba assign : Nat → Nat) (n k c : Nat)
    (hn : 255 * n < 2 ^ 64) :
    clusterSum rgba assign n k c =
      (((clusterPixels assign n k).map fun i => rgba (4 * i + c) % 256).sum) := by
  unfold clusterSum
  exact Nat.mod_eq_of_lt (lt_of_le_of_lt
    (le_trans (clusterSumRaw_le rgba assign n k c)
      (Nat.mul_le_mul_left 255 (clusterCount_le assign n k))) hn)

/-- Every averaged centroid channel is at most 255 (unconditionally: the
wrapped sum is no larger than the true sum, which is at most
`255 * count`). -/
theorem centroid_channels_le (rgba assign : Nat → Nat) (n k : Nat) :
    (centroidOf rgba assign n k).r ≤ 255 ∧
    (centroidOf rgba assign n k).g ≤ 255 ∧
    (centroidOf rgba assign n k).b ≤ 255 := by
  unfold centroidOf
  by_cases h : clusterCount assign n k = 0
  · simp [h]
  · rw [if_neg h]
    have hpos : 0 < clusterCount assign n k := Nat.pos_of_ne_zero h
    refine ⟨?_, ?_, ?_⟩ <;>
      exact le_trans (Nat.div_le_div_right (clusterSum_le rgba assign n k _))
        (le_of_eq (Nat.mul_div_left 255 hpos))

/-- C7: after the averaging step every centroid channel is ≤ 255; an empty
cluster stays at (0,0,0); a nonempty cluster holds the exact integer-division
mean of its members' byte channels (no `uint64_t` wrap under the no-overflow
hypothesis); consequently the `uint8_t` narrowing during palette
materialization is value-preserving. -/
theorem centroid_avg_bounds (rgba assign : Nat → Nat) (n k : Nat)
    (hn : 255 * n < 2 ^ 64) :
    ((centroidOf rgba assign n k).r ≤ 255 ∧
     (centroidOf rgba assign n k).g ≤ 255 ∧
     (centroidOf rgba assign n k).b ≤ 255) ∧
    (clusterCount assign n k = 0 → centroidOf rgba assign n k = ⟨0, 0, 0⟩) ∧
    (clusterCount assign n k ≠ 0 → centroidOf rgba assign n k =
      ⟨(((clusterPixels assign n k).map fun i => rgba (4 * i) % 256).sum) /
          clusterCount assign n k,
       (((clusterPixels assign n k).map fun i => rgba (4 * i + 1) % 256).sum) /
          clusterCount assign n k,
       (((clusterPixels assign n k).map fun i => rgba (4 * i + 2) % 256).sum) /
          clusterCount assign n k⟩) ∧
    ((centroidOf rgba assign n k).r % 256 = (centroidOf rgba assign n k).r ∧
     (centroidOf rgba assign n k).g % 256 = (centroidOf rgba assign n k).g ∧
     (centroidOf rgba assign n k).b % 256 = (centroidOf rgba assign n k).b) := by
  obtain ⟨hr, hg, hb⟩ := centroid_channels_le rgba assign n k
  refine ⟨⟨hr, hg, hb⟩, ?_, ?_, ?_, ?_, ?_⟩
  · intro h0
    unfold centroidOf
    rw [if_pos h0]
  · intro hne
    unfold centroidOf
    rw [if_neg hne]
    have e0 := clusterSum_no_wrap rgba assign n k 0 hn
    have e1 := clusterSum_no_wrap rgba assign n k 1 hn
    have e2 := clusterSum_no_wrap rgba assign n k 2 hn
    rw [e0, e1, e2]
    rfl
  · exact Nat.mod_eq_of_lt (by omega)
  · exact Nat.mod_eq_of_lt (by omega)
  · exact Nat.mod_eq_of_lt (by omega)

/-- Witness for C7: one pixel of value 7, all assigned to cluster 0. -/
theorem centroid_avg_bounds_witness :
    255 * 1 < 2 ^ 64 ∧ (centroidOf (fun _ => 7) (fun _ => 0) 1 0).r ≤ 255 :=
  ⟨by norm_num,
   (centroid_avg_bounds (fun _ => 7) (fun _ => 0) 1 0 (by norm_num)).1.1⟩

/-! ## Nearest-cluster selection -/

theorem bestScan_fst_le (dist : Nat → Nat) : ∀ m, (bestScan dist m).1 ≤ m := by
  intro m
  induction m with
  | zero => simp [bestScan]
  | succ m ih =>
    simp only [bestScan]
    split
    · simp
    · exact le_trans ih (Nat.le_succ m)

theorem bestScan_snd_eq (dist : Nat → Nat) :
    ∀ m, (bestScan dist m).2 = dist (bestScan dist m).1 := by
  intro m
  induction m with
  | zero => simp [bestScan]
  | succ m ih =>
    simp only [bestScan]
    split
    · simp
    · exact ih

theorem bestScan_min (dist : Nat → Nat) :
    ∀ m j, j ≤ m → (bestScan dist m).2 ≤ dist j := by
  intro m
  induction m with
  | zero =>
    intro j hj
    have hj0 : j = 0 := Nat.le_zero.mp hj
    subst hj0
    simp [bestScan]
  | succ m ih =>
    intro j hj
    simp only [bestScan]
    split
    · rename_i hlt
      rcases Nat.lt_succ_iff_lt_or_eq.mp (Nat.lt_succ_of_le hj) with h | h
      · exact le_trans (le_of_lt hlt) (ih j (by omega))
      · subst h; simp
    · rename_i hge
      rcases Nat.lt_succ_iff_lt_or_eq.mp (Nat.lt_succ_of_le hj) with h | h
      · exact ih j (by omega)
      · subst h; omega

theorem bestScan_strict (dist : Nat → Nat) :
    ∀ m j, j < (bestScan dist m).1 → (bestScan dist m).2 < dist j := by
  intro m
  induction m with
  | zero =>
    intro j hj
    simp [bestScan] at hj
  | succ m ih =>
    intro j hj
    simp only [bestScan] at hj ⊢
    split
    · rename_i hlt
      split at hj
      · exact lt_of_lt_of_le hlt (bestScan_min dist m j (by omega))
      · omega
    · rename_i hge
      split at hj
      · omega
      · exact ih j hj

/-- C6: in every reassignment pass, pixel `i < n` receives the smallest
cluster index in [0,15] whose centroid attains the minimum squared Euclidean
RGB distance: clusters are scanned 0..15 and a new best is adopted only on a
strict `<`, so the chosen index attains the minimum and every smaller index
is strictly farther. -/
theorem lloydStep_least_argmin (rgba assign : Nat → Nat) (n i : Nat)
    (hi : i < n) :
    (lloydStep rgba n assign).2.1 i ≤ 15 ∧
    (∀ j, j ≤ 15 →
      sqDistZ (centroidOf rgba assign n ((lloydStep rgba n assign).2.1 i))
          (rgba (4 * i) % 256) (rgba (4 * i + 1) % 256) (rgba (4 * i + 2) % 256) ≤
        sqDistZ (centroidOf rgba assign n j)
          (rgba (4 * i) % 256) (rgba (4 * i + 1) % 256) (rgba (4 * i + 2) % 256)) ∧
    (∀ j, j < (lloydStep rgba n assign).2.1 i →
      sqDistZ (centroidOf rgba assign n ((lloydStep rgba n assign).2.1 i))
          (rgba (4 * i) % 256) (rgba (4 * i + 1) % 256) (rgba (4 * i + 2) % 256) <
        sqDistZ (centroidOf rgba assign n j)
          (rgba (4 * i) % 256) (rgba (4 * i + 1) % 256) (rgba (4 * i + 2) % 256)) := by
  have hb : (lloydStep rgba n assign).2.1 i =
      bestCluster (pixelDist rgba (fun k => centroidOf rgba assign n k) i) := by
    simp only [lloydStep]
    rw [if_pos hi]
  have hexact : ∀ j,
      ((pixelDist rgba (fun k => centroidOf rgba assign n k) i j : Nat) : ℤ) =
        sqDistZ (centroidOf rgba assign n j) (rgba (4 * i) % 256)
          (rgba (4 * i + 1) % 256) (rgba (4 * i + 2) % 256) := by
    intro j
    obtain ⟨hr, hg, hbl⟩ := centroid_channels_le rgba assign n j
    exact dist64_exact_aux _ _ _ _ hr hg hbl
      (Nat.le_of_lt_succ (Nat.mod_lt _ (by omega)))
      (Nat.le_of_lt_succ (Nat.mod_lt _ (by omega)))
      (Nat.le_of_lt_succ (Nat.mod_lt _ (by omega)))
  rw [hb]
  set D := pixelDist rgba (fun k => centroidOf rgba assign n k) i with hD
  simp only [bestCluster]
  refine ⟨bestScan_fst_le D 15, ?_, ?_⟩
  · intro j hj
    rw [← hexact ((bestScan D 15).1), ← hexact j]
    exact_mod_cast bestScan_snd_eq D 15 ▸ bestScan_min D 15 j hj
  · intro j hj
    rw [← hexact ((bestScan D 15).1), ← hexact j]
    exact_mod_cast bestScan_snd_eq D 15 ▸ bestScan_strict D 15 j hj

/-- Witness for C6: one black pixel, all seeds at cluster 0. -/
theorem lloydStep_least_argmin_witness :
    0 < 1 ∧ (lloydStep (fun _ => 0) 1 (fun _ => 0)).2.1 0 ≤ 15 :=
  ⟨Nat.zero_lt_one,
   (lloydStep_least_argmin (fun _ => 0) (fun _ => 0) 1 0 Nat.zero_lt_one).1⟩

/-! ## The diagnostic renderer -/

theorem applyLoop_untouched (img pal rgba0 : Nat → Nat) :
    ∀ m j, m * 4 ≤ j → applyLoop img pal rgba0 m j = rgba0 j := by
  intro m
  induction m with
  | zero => intro j _; rfl
  | succ m ih =>
    intro j hj
    simp only [applyLoop, writePixel]
    rw [if_neg (by omega), if_neg (by omega), if_neg (by omega),
      if_neg (by omega)]
    exact ih j (by omega)

theorem applyLoop_pixel (img pal rgba0 : Nat → Nat) :
    ∀ m i, i < m →
      applyLoop img pal rgba0 m (i * 4) = pal (pixelNibble img i * 3) % 256 ∧
      applyLoop img pal rgba0 m (i * 4 + 1) =
        pal (pixelNibble img i * 3 + 1) % 256 ∧
      applyLoop img pal rgba0 m (i * 4 + 2) =
        pal (pixelNibble img i * 3 + 2) % 256 ∧
      applyLoop img pal rgba0 m (i * 4 + 3) = 255 := by
  intro m
  induction m with
  | zero => intro i hi; exact absurd hi (Nat.not_lt_zero i)
  | succ m ih =>
    intro i hi
    by_cases h : i = m
    · subst h
      refine ⟨?_, ?_, ?_, ?_⟩ <;> simp only [applyLoop, writePixel] <;> simp
    · have hlt : i < m := by omega
      obtain ⟨e0, e1, e2, e3⟩ := ih i hlt
      refine ⟨?_, ?_, ?_, ?_⟩ <;> simp only [applyLoop, writePixel] <;>
        rw [if_neg (by omega), if_neg (by omega), if_neg (by omega),
          if_neg (by omega)]
      exacts [e0, e1, e2, e3]

/-- C8: for every pixel `i < n`, `applyColorsToPixelBuffer` writes bytes
`4i..4i+2` as the 3-byte palette entry selected by pixel `i`'s nibble (high
nibble of byte `i/2` for even `i`, low for odd `i`) and byte `4i+3` as
`0xFF`; every byte at or beyond `4n` is untouched (no other bytes are
written). -/
theorem applyColors_writes (rgba0 img pal : Nat → Nat) (n i j : Nat)
    (hi : i < n) (hj : n * 4 ≤ j) :
    (applyColorsToPixelBuffer rgba0 img pal n (i * 4) =
        pal (pixelNibble img i * 3) % 256 ∧
     applyColorsToPixelBuffer rgba0 img pal n (i * 4 + 1) =
        pal (pixelNibble img i * 3 + 1) % 256 ∧
     applyColorsToPixelBuffer rgba0 img pal n (i * 4 + 2) =
        pal (pixelNibble img i * 3 + 2) % 256 ∧
     applyColorsToPixelBuffer rgba0 img pal n (i * 4 + 3) = 255) ∧
    applyColorsToPixelBuffer rgba0 img pal n j = rgba0 j :=
  ⟨applyLoop_pixel img pal rgba0 n i hi, applyLoop_untouched img pal rgba0 n j hj⟩

/-- Witness for C8: one pixel, identity palette bytes, zero image. -/
theorem applyColors_writes_witness :
    0 < 1 ∧ 1 * 4 ≤ 4 ∧
    applyColorsToPixelBuffer (fun _ => 9) (fun _ => 0) (fun p => p) 1
      (0 * 4 + 3) = 255 ∧
    applyColorsToPixelBuffer (fun _ => 9) (fun _ => 0) (fun p => p) 1 4 = 9 :=
  ⟨Nat.zero_lt_one, le_refl 4,
   ((applyColors_writes (fun _ => 9) (fun _ => 0) (fun p => p) 1 0 4
      Nat.zero_lt_one (le_refl 4)).1).2.2.2,
   (applyColors_writes (fun _ => 9) (fun _ => 0) (fun p => p) 1 0 4
      Nat.zero_lt_one (le_refl 4)).2⟩

/-- C2 (code bug): a one-pixel image with color (200,200,200), seed cluster 0.
k-means converges in one iteration, the original darkest palette index is
d = 1 ≠ 0, and the swap occurs (output palette entry 0 = (0,0,0), entry 1 =
(200,200,200), i.e. bytes 0..2 are 0 and bytes 3..5 are 200).  But the remap
is invoked on `numPixels / 2 = 0` bytes — not `⌈numPixels/2⌉ = 1` — so the
lone pixel's nibble (high nibble of packed byte 0) stays 0 instead of being
remapped to d = 1: the output image byte 0 is `0x00`, not `0x10`. -/
theorem posterize_odd_pixel_not_remapped :
    darkestColor (fun k => if k = 0 then ⟨200, 200, 200⟩ else ⟨0, 0, 0⟩) = 1 ∧
    (posterize (fun _ => 0) (fun _ => 0) (fun _ => 0)
        (fun i => if i < 3 then 200 else 0) 1).1 0 = 0 ∧
    (posterize (fun _ => 0) (fun _ => 0) (fun _ => 0)
        (fun i => if i < 3 then 200 else 0) 1).2 0 = 0 ∧
    (posterize (fun _ => 0) (fun _ => 0) (fun _ => 0)
        (fun i => if i < 3 then 200 else 0) 1).2 3 = 200 := by
  decide
